import Mathlib

/-!
Verification of the IPTV playlist pipeline in `scripts/update_sources.py`
(`IPTVUpdater`): the M3U record parser, the URL deduplicator, the quality
filter, the reachability prober, the bounded-parallel validator, the channel
categorizer and the M3U emitter.

Python strings are modelled as `List Char` (`Str`); helper functions model
the exact library calls the script uses (`str.strip`, `str.splitlines`,
`str.lower`, substring tests, `urllib.parse.urlparse` restricted to the
scheme/netloc fields the script reads, and decimal rendering of an `int`
inside an f-string).
-/

set_option maxHeartbeats 1000000
set_option linter.unusedVariables false

/-- Python strings, modelled as lists of characters. -/
abbrev Str := List Char

/-- Models `str.strip()`'s removal of trailing whitespace. -/
def trimRight : Str → Str
  | [] => []
  | c :: cs =>
    match trimRight cs with
    | [] => if c.isWhitespace then [] else [c]
    | r => c :: r

/-- Models Python `str.strip()` (for the whitespace characters that occur in
this program's data: space, tab, CR, LF). -/
def pyStrip (s : Str) : Str := trimRight (s.dropWhile Char.isWhitespace)

/-- Models Python `str.splitlines()` (worker); `acc` is the reversed current
line. A final newline does not open a trailing empty line. -/
def splitlinesGo (acc : Str) : Str → List Str
  | [] => [acc]
  | c :: cs =>
    if c = '\n' then
      acc :: (if cs.isEmpty then [] else splitlinesGo [] cs)
    else
      splitlinesGo (acc ++ [c]) cs

/-- Models Python `str.splitlines()` for texts whose line breaks are `\n`
(the only line break the script ever emits or that its lemmas rely on). -/
def splitlines (s : Str) : List Str :=
  if s.isEmpty then [] else splitlinesGo [] s

/-- Models Python `sub in hay` (substring containment). -/
def containsStr : Str → Str → Bool
  | [], sub => sub.isEmpty
  | h :: t, sub => sub.isPrefixOf (h :: t) || containsStr t sub

/-- Models Python `str.lower()` (ASCII letters; CJK characters are fixed
points of both `Char.toLower` and `str.lower`). -/
def lowerStr (s : Str) : Str := s.map Char.toLower

/-- Decimal rendering of a natural number, modelling `str(i)` / `f"{i}"`. -/
def natDigits (n : Nat) : Str := Nat.toDigits 10 n

/-- The substring after the first `,`, if any: models
`re.search(r',(?P<name>.*)$', line)` on a newline-free `line` (the regex
engine matches at the leftmost comma and `.*` greedily captures the rest). -/
def afterFirstComma : Str → Option Str
  | [] => none
  | c :: cs => if c = ',' then some cs else afterFirstComma cs

/-- Modelled from the spec: the substring after the last comma of the line
(the spec's reading of the display-name extraction). -/
def afterLastComma : Str → Option Str
  | [] => none
  | c :: cs =>
    match afterLastComma cs with
    | some t => some t
    | none => if c = ',' then some cs else none

/-- One parsed playlist entry: the dict
`{'raw_extinf': ..., 'name': ..., 'url': ..., 'source': ...}` built by
`parse_m3u`. -/
structure Channel where
  raw_extinf : Str
  name : Str
  url : Str
  source : Str
deriving DecidableEq, Repr

/-- The display name `parse_m3u` stores for a stripped `#EXTINF` line at
enumerate index `i`: the (stripped) text after the first comma, or
`Unknown_<i>` when the line has no comma. -/
def extinfName (line : Str) (i : Nat) : Str :=
  match afterFirstComma line with
  | some t => pyStrip t
  | none => "Unknown_".data ++ natDigits i

/-- Does the stripped line start with one of the four transport schemes
(`line.startswith(('http://', 'https://', 'rtsp://', 'rtmp://'))`)? -/
def isTransportLine (line : Str) : Bool :=
  "http://".data.isPrefixOf line || "https://".data.isPrefixOf line ||
    "rtsp://".data.isPrefixOf line || "rtmp://".data.isPrefixOf line

/-- The line-scanning loop of `IPTVUpdater.parse_m3u`: `i` is the
`enumerate` index, `pending` the `current_channel` dict (its `raw_extinf`
and `name` entries) awaiting a transport line. -/
def parse_m3u_lines (source_url : Str) : List Str → Nat → Option (Str × Str) → List Channel
  | [], _, _ => []
  | l :: ls, i, pending =>
    let line := pyStrip l
    if line = [] then parse_m3u_lines source_url ls (i + 1) pending
    else if "#EXTINF".data.isPrefixOf line then
      parse_m3u_lines source_url ls (i + 1) (some (line, extinfName line i))
    else if isTransportLine line then
      match pending with
      | some p => ⟨p.1, p.2, line, source_url⟩ :: parse_m3u_lines source_url ls (i + 1) none
      | none => parse_m3u_lines source_url ls (i + 1) none
    else parse_m3u_lines source_url ls (i + 1) pending

/-- Models `IPTVUpdater.parse_m3u(content, source_url)`. -/
def parse_m3u (content : Str) (source_url : Str) : List Channel :=
  parse_m3u_lines source_url (splitlines content) 0 none

/-- Is `c` allowed in a URL scheme (`urllib`'s `scheme_chars`)? -/
def isSchemeChar (c : Char) : Bool :=
  c.isAlphanum || c = '+' || c = '-' || c = '.'

/-- Split at the first `:`, returning the parts before and after it. -/
def splitAtColon : Str → Option (Str × Str)
  | [] => none
  | c :: cs =>
    if c = ':' then some ([], cs)
    else (splitAtColon cs).map (fun p => (c :: p.1, p.2))

/-- Models `urllib.parse.urlparse`'s scheme recognition: the part before the
first `:` is a scheme when it is non-empty, starts with a letter and uses
only scheme characters; the scheme is lowercased. Returns the scheme and
the remainder the netloc is parsed from. -/
def urlSchemeRest (url : Str) : Str × Str :=
  match splitAtColon url with
  | some p =>
    if p.1 ≠ [] ∧ (p.1.headD ' ').isAlpha = true ∧ p.1.all isSchemeChar = true then
      (lowerStr p.1, p.2)
    else ([], url)
  | none => ([], url)

/-- Models `urlparse(url).scheme`. -/
def urlScheme (url : Str) : Str := (urlSchemeRest url).1

/-- Models `urlparse(url).netloc`: present only after `//`, running up to
the next `/`, `?` or `#`. -/
def urlNetloc (url : Str) : Str :=
  let rest := (urlSchemeRest url).2
  if "//".data.isPrefixOf rest then
    (rest.drop 2).takeWhile (fun c => c != '/' && c != '?' && c != '#')
  else []

/-- What the single `requests.head(...)` call would do for a URL: an HTTP
status, a `requests.exceptions.Timeout`, a `requests.exceptions.ConnectionError`,
or any other exception with its description `str(e)`. -/
inductive NetResponse where
  | status : Nat → NetResponse
  | timeout : NetResponse
  | connectionError : NetResponse
  | otherError : Str → NetResponse
deriving DecidableEq, Repr

/-- The allow-list `['youtube.com', 'youtu.be', 'twitch.tv']`. -/
def trustedDomains : List Str :=
  ["youtube.com".data, "youtu.be".data, "twitch.tv".data]

/-- Models `IPTVUpdater.is_url_accessible(channel, timeout)`. The network is
modelled by `net` (what the lone `requests.head` call would yield); the third
component counts how many `requests.head` calls the function issues, so the
no-network-call branches are observable. Returns `(accessible, message,
request count)`. -/
def is_url_accessible (channel : Channel) (net : NetResponse) : Bool × Str × Nat :=
  let url := channel.url
  if urlScheme url = [] ∨ urlNetloc url = [] then
    (false, "无效的URL格式".data, 0)
  else if trustedDomains.any (fun domain => containsStr url domain) then
    (true, "流媒体链接（跳过验证）".data, 0)
  else
    match net with
    | NetResponse.status code =>
      if code = 200 ∨ code = 302 ∨ code = 301 then
        (true, "状态码: ".data ++ natDigits code, 1)
      else
        (false, "状态码: ".data ++ natDigits code, 1)
    | NetResponse.timeout => (false, "连接超时".data, 1)
    | NetResponse.connectionError => (false, "连接错误".data, 1)
    | NetResponse.otherError e => (false, "异常: ".data ++ e, 1)

/-- Modelled from the claim: is the locator judged trusted by its HOST
(`urlparse(url).netloc`) matching the allow-list, rather than by a substring
test on the whole URL? (Generously, a domain "matches" the host when it
occurs inside it.) -/
def hostMatchesTrusted (url : Str) : Bool :=
  trustedDomains.any (fun domain => containsStr (urlNetloc url) domain)

/-- One entry of `validation_results` in `validate_channels_parallel`:
`{'channel': name, 'url': url, 'valid': bool, 'message': str}`. -/
structure ValidationRecord where
  channel : Str
  url : Str
  valid : Bool
  message : Str
deriving DecidableEq, Repr

/-- Models `IPTVUpdater.validate_channels_parallel(channels, max_workers)`.
The thread pool evaluates `probe` (i.e. `self.is_url_accessible`) once per
submitted channel; `as_completed` hands the futures back in an arbitrary
completion order, modelled by the caller passing the channels in that order
(`order`); `Except.error` models `future.result()` raising, which the loop
catches per item. `max_workers` only bounds how many probes run at once and
does not influence the collected results. Returns
`(valid_channels, validation_results)`. -/
def validate_channels_parallel (probe : Channel → Except Str (Bool × Str))
    (max_workers : Nat) (order : List Channel) : List Channel × List ValidationRecord :=
  order.foldl
    (fun acc c =>
      match probe c with
      | Except.ok res =>
        ((if res.1 then acc.1 ++ [c] else acc.1),
          acc.2 ++ [⟨c.name, c.url, res.1, res.2⟩])
      | Except.error e =>
        (acc.1, acc.2 ++ [⟨c.name, c.url, false, "验证异常: ".data ++ e⟩]))
    ([], [])

/-- The exclusion keywords of `filter_quality_channels`. -/
def badKeywords : List Str :=
  ["test".data, "example".data, "demo".data, "无效".data, "测试".data]

/-- The advisory known-good keywords of `filter_quality_channels`. -/
def goodKeywords : List Str :=
  ["cctv".data, "央视".data, "卫视".data, "湖南".data, "浙江".data, "江苏".data,
    "北京".data, "上海".data, "广东".data, "viutv".data, "无线新闻".data,
    "HOY".data, "NOW".data, "香港".data, "凤凰".data, "翡翠".data, "明珠".data,
    "tvb".data, "RTHK".data]

/-- Models `IPTVUpdater.filter_quality_channels(channels)`. -/
def filter_quality_channels (channels : List Channel) : List Channel :=
  channels.foldl
    (fun acc c =>
      let name := lowerStr c.name
      if badKeywords.any (fun bad_name => containsStr name bad_name) then acc
      else if goodKeywords.any (fun good_keyword => containsStr name good_keyword) then
        acc ++ [c]
      else acc ++ [c])
    []

/-- The `cctv_keywords` of `categorize_channel`. -/
def cctv_keywords : List Str := ["cctv".data, "央视".data, "中央".data]

/-- The `satellite_keywords` of `categorize_channel`. -/
def satellite_keywords : List Str :=
  ["卫视".data, "凤凰".data, "湖南".data, "浙江".data, "江苏".data, "北京".data]

/-- The `local_keywords` of `categorize_channel`. -/
def local_keywords : List Str :=
  ["都市".data, "新闻".data, "民生".data, "公共".data, "教育".data, "少儿".data,
    "体育".data]

/-- The `hongkong_keywords` of `categorize_channel`. -/
def hongkong_keywords : List Str :=
  ["tvb".data, "viutv".data, "无线新闻".data, "HOY".data, "NOW".data, "凤凰".data,
    "翡翠".data, "明珠".data, "RTHK".data]

/-- Models `IPTVUpdater.categorize_channel(channel_name)`. -/
def categorize_channel (channel_name : Str) : Str :=
  let name_lower := lowerStr channel_name
  if cctv_keywords.any (fun keyword => containsStr name_lower keyword) then "cctv".data
  else if satellite_keywords.any (fun keyword => containsStr name_lower keyword) then
    "satellite".data
  else if local_keywords.any (fun keyword => containsStr name_lower keyword) then
    "local".data
  else if hongkong_keywords.any (fun keyword => containsStr name_lower keyword) then
    "hongkong".data
  else "other".data

/-- Modelled from the claim: a fully case-insensitive categorizer that
lowercases keyword and name alike before the substring test (the claim's
reading of "case-insensitive substring match"). -/
def categorize_channel_ci (channel_name : Str) : Str :=
  let name_lower := lowerStr channel_name
  if cctv_keywords.any (fun keyword => containsStr name_lower (lowerStr keyword)) then
    "cctv".data
  else if satellite_keywords.any (fun keyword => containsStr name_lower (lowerStr keyword)) then
    "satellite".data
  else if local_keywords.any (fun keyword => containsStr name_lower (lowerStr keyword)) then
    "local".data
  else if hongkong_keywords.any (fun keyword => containsStr name_lower (lowerStr keyword)) then
    "hongkong".data
  else "other".data

/-- Models the deduplication loop in `IPTVUpdater.run`: an insertion-ordered
dict keyed by `channel['url']` (an association list), inserting only absent
keys, followed by `list(unique_channels.values())`. -/
def dedupChannels (all_channels : List Channel) : List Channel :=
  (all_channels.foldl
    (fun m c => if m.any (fun p => p.1 == c.url) then m else m ++ [(c.url, c)])
    ([] : List (Str × Channel))).map Prod.snd

/-- The five fixed bucket labels of `categorized_channels` in `run`. -/
def bucketLabels : List Str :=
  ["cctv".data, "satellite".data, "local".data, "hongkong".data, "other".data]

/-- Append a channel to the bucket with label `k`. -/
def appendBucket (m : List (Str × List Channel)) (k : Str) (c : Channel) :
    List (Str × List Channel) :=
  m.map (fun p => if p.1 = k then (p.1, p.2 ++ [c]) else p)

/-- Models the categorization loop in `IPTVUpdater.run`: the dict
`{'cctv': [], 'satellite': [], 'local': [], 'hongkong': [], 'other': []}`
to whose `categorize_channel(channel['name'])` entry each valid channel is
appended. -/
def categorizeChannels (valid_channels : List Channel) : List (Str × List Channel) :=
  valid_channels.foldl
    (fun m c => appendBucket m (categorize_channel c.name) c)
    (bucketLabels.map (fun k => (k, ([] : List Channel))))

/-- Models `IPTVUpdater.generate_m3u_content(channels, title)`: the header
f-string (its two `datetime` interpolations passed in as `genTime` and
`updTime`) followed by `raw_extinf` and `url` lines for every channel. -/
def generate_m3u_content (channels : List Channel) (genTime updTime title : Str) : Str :=
  let header :=
    "#EXTM3U\n#EXTENC: UTF-8\n# Generated: ".data ++ genTime ++
      "\n# Updated: ".data ++ updTime ++
      "\n# Title: ".data ++ title ++
      "\n# Total Channels: ".data ++ natDigits channels.length ++
      "\n# For personal testing only.\n\n".data
  channels.foldl (fun content c => content ++ c.raw_extinf ++ ['\n'] ++ c.url ++ ['\n']) header

/-- The emitter's per-channel body text (`f"{raw_extinf}\n{url}\n"` for each
channel), written with its line structure explicit. -/
def bodyStr : List Channel → Str
  | [] => []
  | c :: cs => c.raw_extinf ++ '\n' :: (c.url ++ '\n' :: bodyStr cs)

/-- The two lines each emitted channel contributes. -/
def pairsToLines : List Channel → List Str
  | [] => []
  | c :: cs => c.raw_extinf :: c.url :: pairsToLines cs

/-- The lines of a sequence of `(metadata line, locator line)` pairs. -/
def interleavePairs : List (Str × Str) → List Str
  | [] => []
  | p :: ps => p.1 :: p.2 :: interleavePairs ps

/-- A well-formed `(metadata line, locator line)` pair: both lines already
stripped, the first starting with the metadata marker, the second with a
transport scheme. -/
def goodPair (p : Str × Str) : Prop :=
  pyStrip p.1 = p.1 ∧ "#EXTINF".data.isPrefixOf p.1 = true ∧
    pyStrip p.2 = p.2 ∧ isTransportLine p.2 = true

instance goodPairDecidable (p : Str × Str) : Decidable (goodPair p) := by
  unfold goodPair
  infer_instance

/-- First-occurrence filter: reference form of the deduplication loop
(`seen` is the set of urls already inserted in the dict). -/
def keepFirst (seen : List Str) : List Channel → List Channel
  | [] => []
  | c :: cs =>
    if c.url ∈ seen then keepFirst seen cs
    else c :: keepFirst (c.url :: seen) cs

/-- The `validation_results` entry one probed channel produces. -/
def probeOutcome (probe : Channel → Except Str (Bool × Str)) (c : Channel) :
    ValidationRecord :=
  match probe c with
  | Except.ok res => ⟨c.name, c.url, res.1, res.2⟩
  | Except.error e => ⟨c.name, c.url, false, "验证异常: ".data ++ e⟩

/-- Is the channel kept in `valid_channels` by its probe result? -/
def probeKeeps (probe : Channel → Except Str (Bool × Str)) (c : Channel) : Bool :=
  match probe c with
  | Except.ok res => res.1
  | Except.error _ => false

/-- Does the lowercased display name contain one of the exclusion keywords? -/
def hasBadKeyword (name : Str) : Bool :=
  badKeywords.any (fun bad_name => containsStr (lowerStr name) bad_name)

/-- Join lines with a trailing `\n` after each. -/
def linesToStr : List Str → Str
  | [] => []
  | l :: ls => l ++ '\n' :: linesToStr ls

/-- The eight header lines the emitter writes before the channel pairs
(seven text lines and one blank line). -/
def headerLines (n : Nat) (genTime updTime title : Str) : List Str :=
  ["#EXTM3U".data, "#EXTENC: UTF-8".data, "# Generated: ".data ++ genTime,
    "# Updated: ".data ++ updTime, "# Title: ".data ++ title,
    "# Total Channels: ".data ++ natDigits n, "# For personal testing only.".data, []]

theorem trimRight_cons_not_ws {c : Char} (h : c.isWhitespace = false) (cs : Str) :
    trimRight (c :: cs) = c :: trimRight cs := by
  rcases htr : trimRight cs with _ | ⟨a, r⟩ <;> simp [trimRight, htr, h]

theorem trimRight_cons_of_cons {c d : Char} {cs t : Str} (h : trimRight cs = d :: t) :
    trimRight (c :: cs) = c :: d :: t := by
  simp [trimRight, h]

theorem trimRight_idem (s : Str) : trimRight (trimRight s) = trimRight s := by
  induction s with
  | nil => rfl
  | cons c cs ih =>
    rcases htr : trimRight cs with _ | ⟨a, r⟩
    · by_cases hw : c.isWhitespace <;> simp [trimRight, htr, hw]
    · have h1 : trimRight (c :: cs) = c :: a :: r := by simp [trimRight, htr]
      have h2 : trimRight (a :: r) = a :: r := by rw [← htr, ih, htr]
      rw [h1]
      exact trimRight_cons_of_cons h2

theorem trimRight_shape (c : Char) (cs : Str) :
    trimRight (c :: cs) = [] ∨ ∃ t, trimRight (c :: cs) = c :: t := by
  rcases htr : trimRight cs with _ | ⟨a, r⟩
  · by_cases hw : c.isWhitespace
    · left; simp [trimRight, htr, hw]
    · right; exact ⟨[], by simp [trimRight, htr, hw]⟩
  · right; exact ⟨a :: r, by simp [trimRight, htr]⟩

theorem mem_trimRight {a : Char} : ∀ {s : Str}, a ∈ trimRight s → a ∈ s := by
  intro s
  induction s with
  | nil => simp [trimRight]
  | cons c cs ih =>
    intro h
    rcases htr : trimRight cs with _ | ⟨b, r⟩ <;> rw [htr] at ih
    · by_cases hw : c.isWhitespace <;> simp [trimRight, htr, hw] at h
      simp [h]
    · simp [trimRight, htr] at h
      rcases h with h | h
      · simp [h]
      · exact List.mem_cons_of_mem _ (ih (by simp [h]))

theorem mem_dropWhileStr {a : Char} {p : Char → Bool} {s : Str}
    (h : a ∈ s.dropWhile p) : a ∈ s :=
  (List.dropWhile_suffix p).sublist.mem h

theorem mem_pyStrip {a : Char} {s : Str} (h : a ∈ pyStrip s) : a ∈ s :=
  mem_dropWhileStr (mem_trimRight h)

theorem pyStrip_cons_not_ws {c : Char} (h : c.isWhitespace = false) (xs : Str) :
    pyStrip (c :: xs) = c :: trimRight xs := by
  unfold pyStrip
  rw [List.dropWhile_cons]
  simp only [h, if_false, Bool.false_eq_true]
  exact trimRight_cons_not_ws h xs

theorem dropWhile_eq_cons_not {p : Char → Bool} {c : Char} {t : Str} :
    ∀ {s : Str}, s.dropWhile p = c :: t → p c = false := by
  intro s
  induction s with
  | nil => intro h; simp at h
  | cons a as ih =>
    intro h
    rw [List.dropWhile_cons] at h
    by_cases hp : p a = true
    · rw [if_pos hp] at h
      exact ih h
    · rw [if_neg hp] at h
      cases h
      simpa using hp

theorem pyStrip_idem (s : Str) : pyStrip (pyStrip s) = pyStrip s := by
  rcases hdw : s.dropWhile Char.isWhitespace with _ | ⟨c, t⟩
  · simp [pyStrip, hdw, trimRight]
  · have hc : c.isWhitespace = false := dropWhile_eq_cons_not hdw
    show pyStrip (trimRight (s.dropWhile Char.isWhitespace)) =
      trimRight (s.dropWhile Char.isWhitespace)
    rw [hdw, trimRight_cons_not_ws hc, pyStrip_cons_not_ws hc, trimRight_idem]

theorem isPrefixOf_cons_ex {a : Char} {as s : Str} (h : (a :: as).isPrefixOf s = true) :
    ∃ t, s = a :: t ∧ as.isPrefixOf t = true := by
  cases s with
  | nil => simp [List.isPrefixOf] at h
  | cons b t =>
    simp only [List.isPrefixOf, Bool.and_eq_true, beq_iff_eq] at h
    exact ⟨t, by rw [h.1], h.2⟩

theorem metaLine_head {s : Str} (h : "#EXTINF".data.isPrefixOf s = true) :
    ∃ t, s = '#' :: t := by
  obtain ⟨t, ht, -⟩ := isPrefixOf_cons_ex h
  exact ⟨t, ht⟩

theorem transportLine_head {s : Str} (h : isTransportLine s = true) :
    ∃ t, s = 'h' :: t ∨ s = 'r' :: t := by
  simp only [isTransportLine, Bool.or_eq_true] at h
  rcases h with ((h | h) | h) | h <;>
    obtain ⟨t, ht, -⟩ := isPrefixOf_cons_ex h
  · exact ⟨t, Or.inl ht⟩
  · exact ⟨t, Or.inl ht⟩
  · exact ⟨t, Or.inr ht⟩
  · exact ⟨t, Or.inr ht⟩

theorem transport_not_meta {s : Str} (h : isTransportLine s = true) :
    "#EXTINF".data.isPrefixOf s = false := by
  obtain ⟨t, ht⟩ := transportLine_head h
  by_contra hc
  rw [Bool.not_eq_false] at hc
  obtain ⟨t', ht'⟩ := metaLine_head hc
  rcases ht with ht | ht <;> rw [ht] at ht' <;> simp at ht'

theorem transport_ne_nil {s : Str} (h : isTransportLine s = true) : s ≠ [] := by
  obtain ⟨t, ht⟩ := transportLine_head h
  rcases ht with ht | ht <;> simp [ht]

theorem meta_ne_nil {s : Str} (h : "#EXTINF".data.isPrefixOf s = true) : s ≠ [] := by
  obtain ⟨t, ht⟩ := metaLine_head h
  simp [ht]

theorem splitlinesGo_line (line : Str) (hline : '\n' ∉ line) :
    ∀ (acc rest : Str),
      splitlinesGo acc (line ++ '\n' :: rest) =
        (acc ++ line) :: (if rest.isEmpty then [] else splitlinesGo [] rest) := by
  induction line with
  | nil => intro acc rest; simp [splitlinesGo]
  | cons c line' ih =>
    intro acc rest
    have hc : c ≠ '\n' := by intro hc; exact hline (hc ▸ List.mem_cons_self c line')
    have hline' : '\n' ∉ line' := fun hm => hline (List.mem_cons_of_mem c hm)
    show splitlinesGo acc (c :: (line' ++ '\n' :: rest)) = _
    rw [splitlinesGo, if_neg hc, ih hline' (acc ++ [c]) rest]
    simp

theorem splitlinesGo_no_newline {l : Str} :
    ∀ (s acc : Str), '\n' ∉ acc → l ∈ splitlinesGo acc s → '\n' ∉ l := by
  intro s
  induction s with
  | nil =>
    intro acc hacc hl
    simp [splitlinesGo] at hl
    rwa [hl]
  | cons c cs ih =>
    intro acc hacc hl
    rw [splitlinesGo] at hl
    by_cases hc : c = '\n'
    · rw [if_pos hc] at hl
      rcases List.mem_cons.mp hl with h | h
      · rwa [h]
      · by_cases hcs : cs.isEmpty
        · simp [hcs] at h
        · rw [if_neg hcs] at h
          exact ih [] (by simp) h
    · rw [if_neg hc] at hl
      refine ih (acc ++ [c]) ?_ hl
      intro hm
      rcases List.mem_append.mp hm with h | h
      · exact hacc h
      · simp at h
        exact hc h.symm

theorem splitlines_no_newline {s l : Str} (h : l ∈ splitlines s) : '\n' ∉ l := by
  unfold splitlines at h
  by_cases he : s.isEmpty
  · simp [he] at h
  · rw [if_neg he] at h
    exact splitlinesGo_no_newline s [] (by simp) h

theorem parse_step_blank {src l : Str} (h : pyStrip l = []) (ls : List Str) (i : Nat)
    (pending : Option (Str × Str)) :
    parse_m3u_lines src (l :: ls) i pending = parse_m3u_lines src ls (i + 1) pending := by
  simp [parse_m3u_lines, h]

theorem parse_step_meta {src l : Str} (h : "#EXTINF".data.isPrefixOf (pyStrip l) = true)
    (ls : List Str) (i : Nat) (pending : Option (Str × Str)) :
    parse_m3u_lines src (l :: ls) i pending =
      parse_m3u_lines src ls (i + 1) (some (pyStrip l, extinfName (pyStrip l) i)) := by
  simp [parse_m3u_lines, meta_ne_nil h, h]

theorem parse_step_transport_some {src l raw nm : Str}
    (h : isTransportLine (pyStrip l) = true) (ls : List Str) (i : Nat) :
    parse_m3u_lines src (l :: ls) i (some (raw, nm)) =
      ⟨raw, nm, pyStrip l, src⟩ :: parse_m3u_lines src ls (i + 1) none := by
  simp [parse_m3u_lines, transport_ne_nil h, transport_not_meta h, h]

theorem parse_step_transport_none {src l : Str}
    (h : isTransportLine (pyStrip l) = true) (ls : List Str) (i : Nat) :
    parse_m3u_lines src (l :: ls) i none = parse_m3u_lines src ls (i + 1) none := by
  simp [parse_m3u_lines, transport_ne_nil h, transport_not_meta h, h]

theorem parse_step_other {src l : Str} (h0 : pyStrip l ≠ [])
    (h1 : "#EXTINF".data.isPrefixOf (pyStrip l) = false)
    (h2 : isTransportLine (pyStrip l) = false) (ls : List Str) (i : Nat)
    (pending : Option (Str × Str)) :
    parse_m3u_lines src (l :: ls) i pending = parse_m3u_lines src ls (i + 1) pending := by
  simp [parse_m3u_lines, h0, h1, h2]

theorem lift_meta_origin {l : Str} {ls : List Str} {i : Nat} {r : Channel}
    (h : ∃ j, j < ls.length ∧ r.raw_extinf = pyStrip (ls.getD j []) ∧
      "#EXTINF".data.isPrefixOf r.raw_extinf = true ∧
      r.name = extinfName r.raw_extinf (i + 1 + j)) :
    ∃ j, j < (l :: ls).length ∧ r.raw_extinf = pyStrip ((l :: ls).getD j []) ∧
      "#EXTINF".data.isPrefixOf r.raw_extinf = true ∧
      r.name = extinfName r.raw_extinf (i + j) := by
  obtain ⟨j, hj, hraw, hpre, hname⟩ := h
  refine ⟨j + 1, ?_, ?_, hpre, ?_⟩
  · simp only [List.length_cons]; omega
  · simpa using hraw
  · rw [hname]; congr 1; omega

theorem lift_url_origin {src l : Str} {ls : List Str} {r : Channel}
    (h : ∃ j, j < ls.length ∧ r.url = pyStrip (ls.getD j []) ∧
      isTransportLine r.url = true ∧ r.source = src) :
    ∃ j, j < (l :: ls).length ∧ r.url = pyStrip ((l :: ls).getD j []) ∧
      isTransportLine r.url = true ∧ r.source = src := by
  obtain ⟨j, hj, hurl, htr, hsrc⟩ := h
  refine ⟨j + 1, ?_, ?_, htr, hsrc⟩
  · simp only [List.length_cons]; omega
  · simpa using hurl

theorem parse_m3u_lines_invariant (src : Str) :
    ∀ (ls : List Str) (i : Nat) (pending : Option (Str × Str)) (r : Channel),
      r ∈ parse_m3u_lines src ls i pending →
      ((∃ nm, pending = some (r.raw_extinf, nm) ∧ r.name = nm) ∨
        (∃ j, j < ls.length ∧ r.raw_extinf = pyStrip (ls.getD j []) ∧
          "#EXTINF".data.isPrefixOf r.raw_extinf = true ∧
          r.name = extinfName r.raw_extinf (i + j))) ∧
      (∃ j, j < ls.length ∧ r.url = pyStrip (ls.getD j []) ∧
        isTransportLine r.url = true ∧ r.source = src) := by
  intro ls
  induction ls with
  | nil =>
    intro i pending r h
    simp [parse_m3u_lines] at h
  | cons l ls ih =>
    intro i pending r h
    by_cases hb : pyStrip l = []
    · rw [parse_step_blank hb] at h
      obtain ⟨h1, h2⟩ := ih (i + 1) pending r h
      refine ⟨?_, lift_url_origin h2⟩
      rcases h1 with h1 | h1
      · exact Or.inl h1
      · exact Or.inr (lift_meta_origin h1)
    · by_cases hm : "#EXTINF".data.isPrefixOf (pyStrip l) = true
      · rw [parse_step_meta hm] at h
        obtain ⟨h1, h2⟩ := ih (i + 1) (some (pyStrip l, extinfName (pyStrip l) i)) r h
        refine ⟨?_, lift_url_origin h2⟩
        rcases h1 with ⟨nm, hpend, hnm⟩ | h1
        · right
          have hraw : pyStrip l = r.raw_extinf := by
            injection hpend with hp
            exact congrArg Prod.fst hp
          have hname : extinfName (pyStrip l) i = nm := by
            injection hpend with hp
            exact congrArg Prod.snd hp
          refine ⟨0, by simp, ?_, ?_, ?_⟩
          · simpa using hraw.symm
          · rw [← hraw]; exact hm
          · rw [hnm, ← hname, ← hraw]; simp
        · exact Or.inr (lift_meta_origin h1)
      · by_cases ht : isTransportLine (pyStrip l) = true
        · rcases pending with _ | ⟨raw, nm⟩
          · rw [parse_step_transport_none ht] at h
            obtain ⟨h1, h2⟩ := ih (i + 1) none r h
            refine ⟨?_, lift_url_origin h2⟩
            rcases h1 with ⟨nm, hpend, _⟩ | h1
            · exact absurd hpend (by simp)
            · exact Or.inr (lift_meta_origin h1)
          · rw [parse_step_transport_some ht] at h
            rcases List.mem_cons.mp h with hr | hr
            · subst hr
              constructor
              · exact Or.inl ⟨nm, rfl, rfl⟩
              · exact ⟨0, by simp, by simp, ht, rfl⟩
            · obtain ⟨h1, h2⟩ := ih (i + 1) none r hr
              refine ⟨?_, lift_url_origin h2⟩
              rcases h1 with ⟨nm', hpend, _⟩ | h1
              · exact absurd hpend (by simp)
              · exact Or.inr (lift_meta_origin h1)
        · rw [parse_step_other hb (Bool.eq_false_iff.mpr hm) (Bool.eq_false_iff.mpr ht)] at h
          obtain ⟨h1, h2⟩ := ih (i + 1) pending r h
          refine ⟨?_, lift_url_origin h2⟩
          rcases h1 with h1 | h1
          · exact Or.inl h1
          · exact Or.inr (lift_meta_origin h1)

theorem digitChar_lt10_ne_newline {k : Nat} (h : k < 10) : Nat.digitChar k ≠ '\n' := by
  interval_cases k <;> decide

theorem toDigitsCore_ne_newline :
    ∀ (fuel n : Nat) (ds : Str), (∀ c ∈ ds, c ≠ '\n') →
      ∀ c ∈ Nat.toDigitsCore 10 fuel n ds, c ≠ '\n' := by
  intro fuel
  induction fuel with
  | zero => intro n ds hds c hc; exact hds c hc
  | succ fuel ih =>
    intro n ds hds c hc
    rw [Nat.toDigitsCore] at hc
    by_cases h : n / 10 = 0
    · rw [if_pos h] at hc
      rcases List.mem_cons.mp hc with hc | hc
      · rw [hc]
        exact digitChar_lt10_ne_newline (Nat.mod_lt _ (by omega))
      · exact hds c hc
    · rw [if_neg h] at hc
      refine ih (n / 10) _ ?_ c hc
      intro d hd
      rcases List.mem_cons.mp hd with hd | hd
      · rw [hd]
        exact digitChar_lt10_ne_newline (Nat.mod_lt _ (by omega))
      · exact hds d hd

theorem natDigits_no_newline (n : Nat) : '\n' ∉ natDigits n := by
  intro hm
  exact toDigitsCore_ne_newline (n + 1) n [] (by simp) '\n' hm rfl

theorem generate_foldl (channels : List Channel) :
    ∀ (hdr : Str),
      channels.foldl (fun content c => content ++ c.raw_extinf ++ ['\n'] ++ c.url ++ ['\n']) hdr
        = hdr ++ bodyStr channels := by
  induction channels with
  | nil => intro hdr; simp [bodyStr]
  | cons c cs ih =>
    intro hdr
    rw [List.foldl_cons, ih]
    simp [bodyStr]

theorem bodyStr_eq (recs : List Channel) : bodyStr recs = linesToStr (pairsToLines recs) := by
  induction recs with
  | nil => rfl
  | cons c cs ih => simp [bodyStr, pairsToLines, linesToStr, ih]

theorem linesToStr_append (A B : List Str) :
    linesToStr (A ++ B) = linesToStr A ++ linesToStr B := by
  induction A with
  | nil => simp [linesToStr]
  | cons l ls ih => simp [linesToStr, ih]

theorem generate_eq (channels : List Channel) (genTime updTime title : Str) :
    generate_m3u_content channels genTime updTime title =
      linesToStr (headerLines channels.length genTime updTime title ++ pairsToLines channels) := by
  unfold generate_m3u_content
  rw [generate_foldl, linesToStr_append, bodyStr_eq]
  congr 1
  have e1 : "#EXTM3U\n#EXTENC: UTF-8\n# Generated: ".data =
      "#EXTM3U".data ++ '\n' :: ("#EXTENC: UTF-8".data ++ ('\n' :: "# Generated: ".data)) := by
    rfl
  have e2 : "\n# Updated: ".data = '\n' :: "# Updated: ".data := by rfl
  have e3 : "\n# Title: ".data = '\n' :: "# Title: ".data := by rfl
  have e4 : "\n# Total Channels: ".data = '\n' :: "# Total Channels: ".data := by rfl
  have e5 : "\n# For personal testing only.\n\n".data =
      '\n' :: ("# For personal testing only.".data ++ ('\n' :: ('\n' :: []))) := by rfl
  rw [e1, e2, e3, e4, e5]
  simp [headerLines, linesToStr, List.append_assoc]

theorem isEmptyFalseOfAppendLeft {a b : Str} (h : a ≠ []) : (a ++ b).isEmpty = false := by
  cases a with
  | nil => exact absurd rfl h
  | cons c t => rfl

theorem splitlinesGo_linesToStr :
    ∀ (ls : List Str), ls ≠ [] → (∀ l ∈ ls, '\n' ∉ l) →
      splitlinesGo [] (linesToStr ls) = ls := by
  intro ls
  induction ls with
  | nil => intro h _; exact absurd rfl h
  | cons l rest ih =>
    intro _ hnl
    show splitlinesGo [] (l ++ '\n' :: linesToStr rest) = l :: rest
    rw [splitlinesGo_line l (hnl l (List.mem_cons_self l rest))]
    cases rest with
    | nil => simp [linesToStr]
    | cons l2 rest2 =>
      have hne2 : (linesToStr (l2 :: rest2)).isEmpty = false := by
        cases l2 <;> simp [linesToStr]
      rw [if_neg (by simp [hne2])]
      rw [ih (by simp) (fun x hx => hnl x (List.mem_cons_of_mem _ hx))]
      simp

theorem mem_pairsToLines {recs : List Channel} {l : Str} (h : l ∈ pairsToLines recs) :
    ∃ r ∈ recs, l = r.raw_extinf ∨ l = r.url := by
  induction recs with
  | nil => simp [pairsToLines] at h
  | cons c cs ih =>
    rw [pairsToLines] at h
    rcases List.mem_cons.mp h with h | h
    · exact ⟨c, List.mem_cons_self c cs, Or.inl h⟩
    · rcases List.mem_cons.mp h with h | h
      · exact ⟨c, List.mem_cons_self c cs, Or.inr h⟩
      · obtain ⟨r, hr, hor⟩ := ih h
        exact ⟨r, List.mem_cons_of_mem _ hr, hor⟩

theorem splitlines_generate (recs : List Channel) (g u t : Str)
    (hg : '\n' ∉ g) (hu : '\n' ∉ u) (ht : '\n' ∉ t)
    (hrecs : ∀ r ∈ recs, '\n' ∉ r.raw_extinf ∧ '\n' ∉ r.url) :
    splitlines (generate_m3u_content recs g u t) =
      headerLines recs.length g u t ++ pairsToLines recs := by
  rw [generate_eq]
  unfold splitlines
  have hC : (linesToStr (headerLines recs.length g u t ++ pairsToLines recs)).isEmpty = false := by
    show (linesToStr ("#EXTM3U".data ::
      ("#EXTENC: UTF-8".data :: ("# Generated: ".data ++ g) :: ("# Updated: ".data ++ u) ::
        ("# Title: ".data ++ t) :: ("# Total Channels: ".data ++ natDigits recs.length) ::
        "# For personal testing only.".data :: [] :: pairsToLines recs))).isEmpty = false
    simp only [linesToStr]
    exact isEmptyFalseOfAppendLeft (by decide)
  rw [if_neg (by simp [hC])]
  apply splitlinesGo_linesToStr
  · simp [headerLines]
  · intro l hl
    rcases List.mem_append.mp hl with hl | hl
    · simp only [headerLines, List.mem_cons, List.not_mem_nil, or_false] at hl
      rcases hl with hl | hl | hl | hl | hl | hl | hl | hl <;> subst hl
      · decide
      · decide
      · intro hm
        rcases List.mem_append.mp hm with hm | hm
        · revert hm; decide
        · exact hg hm
      · intro hm
        rcases List.mem_append.mp hm with hm | hm
        · revert hm; decide
        · exact hu hm
      · intro hm
        rcases List.mem_append.mp hm with hm | hm
        · revert hm; decide
        · exact ht hm
      · intro hm
        rcases List.mem_append.mp hm with hm | hm
        · revert hm; decide
        · exact natDigits_no_newline _ hm
      · decide
      · simp
    · obtain ⟨r, hr, hor⟩ := mem_pairsToLines hl
      rcases hor with hor | hor <;> subst hor
      · exact (hrecs r hr).1
      · exact (hrecs r hr).2

theorem isTransportLine_cons_false {c : Char} (h1 : c ≠ 'h') (h2 : c ≠ 'r') (X : Str) :
    isTransportLine (c :: X) = false := by
  cases hb : isTransportLine (c :: X)
  · rfl
  · obtain ⟨t, ht⟩ := transportLine_head hb
    rcases ht with ht | ht
    · exact absurd (List.cons.inj ht).1 h1
    · exact absurd (List.cons.inj ht).1 h2

theorem meta_hash_space_false (t : Str) :
    "#EXTINF".data.isPrefixOf ('#' :: ' ' :: t) = false := by
  cases hb : "#EXTINF".data.isPrefixOf ('#' :: ' ' :: t)
  · rfl
  · have e : "#EXTINF".data = '#' :: "EXTINF".data := rfl
    rw [e] at hb
    obtain ⟨t', ht', h2⟩ := isPrefixOf_cons_ex hb
    have e2 : "EXTINF".data = 'E' :: "XTINF".data := rfl
    rw [e2] at h2
    obtain ⟨t'', ht'', _⟩ := isPrefixOf_cons_ex h2
    have : (' ' :: t) = t' := (List.cons.inj ht').2
    rw [← this] at ht''
    exact absurd (List.cons.inj ht'').1 (by decide)

theorem parse_skip_hash_space (src : Str) (xs : Str) (ls : List Str) (i : Nat)
    (pending : Option (Str × Str)) :
    parse_m3u_lines src (('#' :: ' ' :: xs) :: ls) i pending =
      parse_m3u_lines src ls (i + 1) pending := by
  have hps : pyStrip ('#' :: ' ' :: xs) = '#' :: trimRight (' ' :: xs) :=
    pyStrip_cons_not_ws (by decide) _
  rcases trimRight_shape ' ' xs with h | ⟨t, h⟩
  · apply parse_step_other <;> rw [hps, h]
    · decide
    · decide
    · decide
  · apply parse_step_other <;> rw [hps, h]
    · simp
    · exact meta_hash_space_false t
    · exact isTransportLine_cons_false (by decide) (by decide) _

theorem parse_body (src : Str) :
    ∀ (recs : List Channel) (i : Nat),
      (∀ r ∈ recs, pyStrip r.raw_extinf = r.raw_extinf ∧
        "#EXTINF".data.isPrefixOf r.raw_extinf = true ∧
        (∃ t, afterFirstComma r.raw_extinf = some t ∧ r.name = pyStrip t) ∧
        pyStrip r.url = r.url ∧ isTransportLine r.url = true) →
      (parse_m3u_lines src (pairsToLines recs) i none).map (fun r => (r.name, r.url)) =
        recs.map (fun r => (r.name, r.url)) := by
  intro recs
  induction recs with
  | nil => intro i _; simp [pairsToLines, parse_m3u_lines]
  | cons c cs ih =>
    intro i h
    obtain ⟨hraw, hpre, ⟨t, hafc, hname⟩, hurl, htr⟩ := h c (List.mem_cons_self c cs)
    show (parse_m3u_lines src (c.raw_extinf :: c.url :: pairsToLines cs) i none).map _ = _
    have h1 := @parse_step_meta src c.raw_extinf
      (by rw [hraw]; exact hpre) (c.url :: pairsToLines cs) i none
    rw [hraw] at h1
    have h2 := @parse_step_transport_some src c.url c.raw_extinf
      (extinfName c.raw_extinf i)
      (by rw [hurl]; exact htr) (pairsToLines cs) (i + 1)
    rw [hurl] at h2
    rw [h1, h2, List.map_cons]
    have hn : extinfName c.raw_extinf i = c.name := by
      rw [extinfName, hafc, hname]
    rw [List.map_cons, hn]
    exact congrArg _ (ih (i + 1 + 1) (fun r hr => h r (List.mem_cons_of_mem _ hr)))

theorem parse_m3u_record_props (input src : Str) (r : Channel) (hr : r ∈ parse_m3u input src) :
    pyStrip r.raw_extinf = r.raw_extinf ∧
    "#EXTINF".data.isPrefixOf r.raw_extinf = true ∧
    '\n' ∉ r.raw_extinf ∧
    pyStrip r.url = r.url ∧ isTransportLine r.url = true ∧ '\n' ∉ r.url ∧
    (∃ j, j < (splitlines input).length ∧
      r.raw_extinf = pyStrip ((splitlines input).getD j []) ∧
      r.name = extinfName r.raw_extinf j) := by
  obtain ⟨h1, h2⟩ := parse_m3u_lines_invariant src (splitlines input) 0 none r hr
  rcases h1 with ⟨nm, hpend, _⟩ | ⟨j, hj, hraw, hpre, hname⟩
  · exact absurd hpend (by simp)
  obtain ⟨j', hj', hurl, htr, hsrc⟩ := h2
  have hlm : (splitlines input).getD j [] ∈ splitlines input := by
    rw [List.getD_eq_getElem _ _ hj]
    exact List.getElem_mem hj
  have hlm' : (splitlines input).getD j' [] ∈ splitlines input := by
    rw [List.getD_eq_getElem _ _ hj']
    exact List.getElem_mem hj'
  refine ⟨?_, hpre, ?_, ?_, htr, ?_, ⟨j, hj, hraw, ?_⟩⟩
  · rw [hraw, pyStrip_idem]
  · intro hm
    exact splitlines_no_newline hlm (mem_pyStrip (hraw ▸ hm))
  · rw [hurl, pyStrip_idem]
  · intro hm
    exact splitlines_no_newline hlm' (mem_pyStrip (hurl ▸ hm))
  · simpa using hname

/-- C4 (amended): for every record sequence produced by the Record Parser in
which every metadata line contains a comma, re-parsing the Playlist Emitter's
output through the Record Parser yields, record for record, an equal
`streamLocator` and an equal `displayName` (for comma-less metadata lines the
synthesized `Unknown_<index>` placeholder is renumbered by the emitted
header's eight lines, so the displayName round-trip fails there; see the
counterexample). -/
theorem claim4_roundtrip (input src0 src1 g u t : Str)
    (hg : '\n' ∉ g) (hu : '\n' ∉ u) (ht : '\n' ∉ t)
    (hcomma : ∀ r ∈ parse_m3u input src0, (afterFirstComma r.raw_extinf).isSome = true) :
    (parse_m3u (generate_m3u_content (parse_m3u input src0) g u t) src1).map
        (fun r => (r.name, r.url)) =
      (parse_m3u input src0).map (fun r => (r.name, r.url)) := by
  have hprops : ∀ r ∈ parse_m3u input src0,
      pyStrip r.raw_extinf = r.raw_extinf ∧
      "#EXTINF".data.isPrefixOf r.raw_extinf = true ∧
      (∃ t', afterFirstComma r.raw_extinf = some t' ∧ r.name = pyStrip t') ∧
      pyStrip r.url = r.url ∧ isTransportLine r.url = true := by
    intro r hr
    obtain ⟨p1, p2, p3, p4, p5, p6, j, hj, hraw, hname⟩ :=
      parse_m3u_record_props input src0 r hr
    refine ⟨p1, p2, ?_, p4, p5⟩
    have hs := hcomma r hr
    rcases hafc : afterFirstComma r.raw_extinf with _ | t'
    · rw [hafc] at hs; simp at hs
    · exact ⟨t', rfl, by rw [hname, extinfName, hafc]⟩
  have hnl : ∀ r ∈ parse_m3u input src0, '\n' ∉ r.raw_extinf ∧ '\n' ∉ r.url := by
    intro r hr
    obtain ⟨_, _, p3, _, _, p6, _⟩ := parse_m3u_record_props input src0 r hr
    exact ⟨p3, p6⟩
  show (parse_m3u_lines src1
    (splitlines (generate_m3u_content (parse_m3u input src0) g u t)) 0 none).map _ = _
  rw [splitlines_generate _ g u t hg hu ht hnl]
  simp only [headerLines, List.cons_append, List.nil_append]
  rw [@parse_step_other src1 "#EXTM3U".data
    (by decide) (by decide) (by decide)]
  rw [@parse_step_other src1 "#EXTENC: UTF-8".data
    (by decide) (by decide) (by decide)]
  rw [parse_skip_hash_space]
  rw [parse_skip_hash_space]
  rw [parse_skip_hash_space]
  rw [parse_skip_hash_space]
  rw [parse_skip_hash_space]
  rw [parse_step_blank (show pyStrip ([] : Str) = [] from rfl)]
  exact parse_body src1 (parse_m3u input src0) _ hprops

/-- C4 counterexample: a record whose metadata line has no comma gets the
synthesized name `Unknown_0` when first parsed, but re-parsing the emitted
playlist yields `Unknown_8` (the eight header lines shift the enumerate
index), so the round-trip does not preserve `displayName` as claimed. -/
theorem claim4_counterexample :
    (parse_m3u "#EXTINF:-1\nhttp://a".data "s1".data).map (fun r => r.name)
        = ["Unknown_0".data] ∧
    (parse_m3u
        (generate_m3u_content (parse_m3u "#EXTINF:-1\nhttp://a".data "s1".data)
          "2024-01-01 00:00:00 UTC".data "2024-01-01 08:00:00".data "直播源".data)
        "s1".data).map (fun r => r.name) = ["Unknown_8".data] ∧
    ("Unknown_8".data : Str) ≠ "Unknown_0".data := by
  refine ⟨by decide, by decide, by decide⟩

/-- C4 witness: the amended round-trip theorem applied to a concrete
single-record playlist whose metadata line contains a comma. -/
theorem claim4_witness :
    (parse_m3u (generate_m3u_content (parse_m3u "#EXTINF:-1,A\nhttp://a".data "s1".data)
        "G".data "U".data "T".data) "s2".data).map (fun r => (r.name, r.url)) =
      (parse_m3u "#EXTINF:-1,A\nhttp://a".data "s1".data).map (fun r => (r.name, r.url)) :=
  claim4_roundtrip "#EXTINF:-1,A\nhttp://a".data "s1".data "s2".data
    "G".data "U".data "T".data (by decide) (by decide) (by decide) (by decide)

/-- C5 (amended): every record the Record Parser emits takes its
`displayName` from its own metadata line (stripped), namely the text after
the FIRST comma of that line trimmed of whitespace, or the synthesized
`Unknown_<lineIndex>` when the line has no comma (`extinfName`); the name
is the text after the first comma, not the last, and it can be the empty
string, so "never empty" does not hold (see the counterexample). -/
theorem claim5_display_name (content src : Str) (r : Channel)
    (hr : r ∈ parse_m3u content src) :
    ∃ j, j < (splitlines content).length ∧
      r.raw_extinf = pyStrip ((splitlines content).getD j []) ∧
      "#EXTINF".data.isPrefixOf r.raw_extinf = true ∧
      r.name = extinfName r.raw_extinf j := by
  obtain ⟨h1, _⟩ := parse_m3u_lines_invariant src (splitlines content) 0 none r hr
  rcases h1 with ⟨nm, hpend, _⟩ | ⟨j, hj, hraw, hpre, hname⟩
  · exact absurd hpend (by simp)
  · exact ⟨j, hj, hraw, hpre, by simpa using hname⟩

/-- C5 counterexample: for the metadata line `#EXTINF:-1,A,B` the parser
stores `A,B` — the text after the FIRST comma — while the claimed
last-comma extraction yields `B`; and for `#EXTINF:-1,` the stored
`displayName` is the empty string, refuting "never the empty string". -/
theorem claim5_counterexample :
    (parse_m3u "#EXTINF:-1,A,B\nhttp://x".data "s".data).map (fun r => r.name)
        = ["A,B".data] ∧
    (afterLastComma (pyStrip "#EXTINF:-1,A,B".data)).map pyStrip = some "B".data ∧
    ("A,B".data : Str) ≠ "B".data ∧
    (parse_m3u "#EXTINF:-1,\nhttp://x".data "s".data).map (fun r => r.name)
        = [([] : Str)] := by
  refine ⟨by decide, by decide, by decide, by decide⟩

/-- C5 witness: the display-name theorem applied to the record parsed from a
concrete playlist. -/
theorem claim5_witness :
    ∃ j, j < (splitlines "#EXTINF:-1,A,B\nhttp://x".data).length ∧
      (⟨"#EXTINF:-1,A,B".data, "A,B".data, "http://x".data, "s".data⟩ :
        Channel).raw_extinf =
        pyStrip ((splitlines "#EXTINF:-1,A,B\nhttp://x".data).getD j []) ∧
      "#EXTINF".data.isPrefixOf (⟨"#EXTINF:-1,A,B".data, "A,B".data, "http://x".data,
        "s".data⟩ : Channel).raw_extinf = true ∧
      (⟨"#EXTINF:-1,A,B".data, "A,B".data, "http://x".data, "s".data⟩ : Channel).name =
        extinfName (⟨"#EXTINF:-1,A,B".data, "A,B".data, "http://x".data,
          "s".data⟩ : Channel).raw_extinf j :=
  claim5_display_name "#EXTINF:-1,A,B\nhttp://x".data "s".data
    ⟨"#EXTINF:-1,A,B".data, "A,B".data, "http://x".data, "s".data⟩ (by decide)

theorem parse_pairs (src : Str) :
    ∀ (ps : List (Str × Str)) (i : Nat), (∀ p ∈ ps, goodPair p) →
      (parse_m3u_lines src (interleavePairs ps) i none).map
        (fun r => (r.raw_extinf, r.url)) = ps := by
  intro ps
  induction ps with
  | nil => intro i _; simp [interleavePairs, parse_m3u_lines]
  | cons p ps ih =>
    intro i h
    obtain ⟨hm1, hm2, hu1, hu2⟩ := h p (List.mem_cons_self p ps)
    show (parse_m3u_lines src (p.1 :: p.2 :: interleavePairs ps) i none).map _ = _
    have h1 := @parse_step_meta src p.1
      (by rw [hm1]; exact hm2) (p.2 :: interleavePairs ps) i none
    rw [hm1] at h1
    have h2 := @parse_step_transport_some src p.2 p.1 (extinfName p.1 i)
      (by rw [hu1]; exact hu2) (interleavePairs ps) (i + 1)
    rw [hu1] at h2
    rw [h1, h2, List.map_cons]
    rw [ih (i + 1 + 1) (fun q hq => h q (List.mem_cons_of_mem _ hq))]

/-- C8: the Parser emits one record per complete `(metadataLine,
locatorLine)` pair, in first-appearance order with the pair's own lines
(so the output length equals the number of complete pairs); a transport
line arriving with no pending metadata is discarded and contributes no
record; blank lines are skipped without touching the pending state. -/
theorem claim8_parser_pairs :
    (∀ (src l : Str) (ls : List Str) (i : Nat) (pending : Option (Str × Str)),
      pyStrip l = [] →
      parse_m3u_lines src (l :: ls) i pending = parse_m3u_lines src ls (i + 1) pending) ∧
    (∀ (src l : Str) (ls : List Str) (i : Nat),
      isTransportLine (pyStrip l) = true →
      parse_m3u_lines src (l :: ls) i none = parse_m3u_lines src ls (i + 1) none) ∧
    (∀ (src : Str) (ps : List (Str × Str)) (i : Nat),
      (∀ p ∈ ps, goodPair p) →
      (parse_m3u_lines src (interleavePairs ps) i none).map
          (fun r => (r.raw_extinf, r.url)) = ps ∧
      (parse_m3u_lines src (interleavePairs ps) i none).length = ps.length) := by
  refine ⟨?_, ?_, ?_⟩
  · intro src l ls i pending h
    exact parse_step_blank h ls i pending
  · intro src l ls i h
    exact parse_step_transport_none h ls i
  · intro src ps i h
    have hmap := parse_pairs src ps i h
    refine ⟨hmap, ?_⟩
    have := congrArg List.length hmap
    simpa using this

/-- C8 witness: a concrete run with one orphaned transport line, one blank
line and two complete pairs, yielding exactly the two pairs. -/
theorem claim8_witness :
    (parse_m3u_lines "s".data
        (interleavePairs [("#EXTINF:-1,A".data, "http://a".data),
          ("#EXTINF:2,B".data, "rtsp://b".data)]) 0 none).map
        (fun r => (r.raw_extinf, r.url)) =
      [("#EXTINF:-1,A".data, "http://a".data), ("#EXTINF:2,B".data, "rtsp://b".data)] ∧
    parse_m3u_lines "s".data
        ("http://orphan".data :: ["#EXTINF:-1,A".data, "http://a".data]) 0 none =
      parse_m3u_lines "s".data ["#EXTINF:-1,A".data, "http://a".data] 1 none ∧
    parse_m3u_lines "s".data
        ("  ".data :: ["#EXTINF:-1,A".data, "http://a".data]) 0 none =
      parse_m3u_lines "s".data ["#EXTINF:-1,A".data, "http://a".data] 1 none := by
  refine ⟨(claim8_parser_pairs.2.2 "s".data _ 0 (by decide)).1,
    claim8_parser_pairs.2.1 "s".data "http://orphan".data
      ["#EXTINF:-1,A".data, "http://a".data] 0 (by decide),
    claim8_parser_pairs.1 "s".data "  ".data
      ["#EXTINF:-1,A".data, "http://a".data] 0 none (by decide)⟩

/-- C10: when two metadata (`#EXTINF`) lines occur with no transport line
between them, the parser silently replaces the earlier pending record with
the later one: parsing is unchanged if the earlier metadata line is removed,
so the overwritten line produces no record and raises no error. -/
theorem claim10_metadata_overwrite (src m1 m2 : Str) (rest : List Str) (i : Nat)
    (pending : Option (Str × Str))
    (h1 : "#EXTINF".data.isPrefixOf (pyStrip m1) = true)
    (h2 : "#EXTINF".data.isPrefixOf (pyStrip m2) = true) :
    parse_m3u_lines src (m1 :: m2 :: rest) i pending =
      parse_m3u_lines src (m2 :: rest) (i + 1) pending := by
  rw [parse_step_meta h1, parse_step_meta h2, parse_step_meta h2]

/-- C10 witness: with two adjacent metadata lines only the later one yields
a record. -/
theorem claim10_witness :
    parse_m3u_lines "s".data
        ["#EXTINF:-1,A".data, "#EXTINF:-1,B".data, "http://b".data] 0 none =
      parse_m3u_lines "s".data ["#EXTINF:-1,B".data, "http://b".data] 1 none :=
  claim10_metadata_overwrite "s".data "#EXTINF:-1,A".data "#EXTINF:-1,B".data
    ["http://b".data] 0 none (by decide) (by decide)

theorem validate_foldl_snd (probe : Channel → Except Str (Bool × Str)) :
    ∀ (order : List Channel) (acc : List Channel × List ValidationRecord),
      (order.foldl
        (fun acc c =>
          match probe c with
          | Except.ok res =>
            ((if res.1 then acc.1 ++ [c] else acc.1),
              acc.2 ++ [⟨c.name, c.url, res.1, res.2⟩])
          | Except.error e =>
            (acc.1, acc.2 ++ [⟨c.name, c.url, false, "验证异常: ".data ++ e⟩])) acc).2
        = acc.2 ++ order.map (probeOutcome probe) := by
  intro order
  induction order with
  | nil => intro acc; simp
  | cons c cs ih =>
    intro acc
    rw [List.foldl_cons, ih]
    cases hp : probe c with
    | ok res => simp [probeOutcome, hp]
    | error e => simp [probeOutcome, hp]

theorem validate_foldl_fst (probe : Channel → Except Str (Bool × Str)) :
    ∀ (order : List Channel) (acc : List Channel × List ValidationRecord),
      (order.foldl
        (fun acc c =>
          match probe c with
          | Except.ok res =>
            ((if res.1 then acc.1 ++ [c] else acc.1),
              acc.2 ++ [⟨c.name, c.url, res.1, res.2⟩])
          | Except.error e =>
            (acc.1, acc.2 ++ [⟨c.name, c.url, false, "验证异常: ".data ++ e⟩])) acc).1
        = acc.1 ++ order.filter (probeKeeps probe) := by
  intro order
  induction order with
  | nil => intro acc; simp
  | cons c cs ih =>
    intro acc
    rw [List.foldl_cons, ih]
    cases hp : probe c with
    | ok res =>
      rcases res with ⟨b, msg⟩
      cases b <;> simp [probeKeeps, hp, List.filter_cons]
    | error e => simp [probeKeeps, hp, List.filter_cons]

theorem validate_results_eq (probe : Channel → Except Str (Bool × Str)) (W : Nat)
    (order : List Channel) :
    (validate_channels_parallel probe W order).2 = order.map (probeOutcome probe) := by
  unfold validate_channels_parallel
  rw [validate_foldl_snd probe order ([], [])]
  simp

theorem validate_valid_eq (probe : Channel → Except Str (Bool × Str)) (W : Nat)
    (order : List Channel) :
    (validate_channels_parallel probe W order).1 = order.filter (probeKeeps probe) := by
  unfold validate_channels_parallel
  rw [validate_foldl_fst probe order ([], [])]
  simp

theorem probeOutcome_channel_url (probe : Channel → Except Str (Bool × Str)) (c : Channel) :
    (probeOutcome probe c).channel = c.name ∧ (probeOutcome probe c).url = c.url := by
  cases hp : probe c <;> simp [probeOutcome, hp]

/-- C1: for every input sequence of `n` records, every pool width `W ≥ 1`
and every completion order of the pool's futures, the Concurrent Validator
produces exactly `n` outcomes — the multiset of outcome records equals the
multiset of input records (no loss, no duplication) and every outcome's
record appears in the input; this holds for any probe function, including
probes that raise (`Except.error`), so one failing probe never suppresses
the outcomes of the other records; nothing constrains `W` beyond `1 ≤ W`,
so the run also succeeds for `W = 1` and `W > n`. -/
theorem claim1_validator_outcomes (channels order : List Channel)
    (probe : Channel → Except Str (Bool × Str)) (W : Nat)
    (hW : 1 ≤ W) (hperm : order.Perm channels) :
    (validate_channels_parallel probe W order).2.length = channels.length ∧
    ((validate_channels_parallel probe W order).2.map (fun o => (o.channel, o.url))).Perm
      (channels.map (fun c => (c.name, c.url))) ∧
    (∀ o ∈ (validate_channels_parallel probe W order).2,
      ∃ c ∈ channels, c.name = o.channel ∧ c.url = o.url) := by
  have hres := validate_results_eq probe W order
  refine ⟨?_, ?_, ?_⟩
  · rw [hres, List.length_map, hperm.length_eq]
  · rw [hres, List.map_map]
    have he : ∀ c ∈ order,
        ((fun o => (o.channel, o.url)) ∘ probeOutcome probe) c = (c.name, c.url) := by
      intro c _
      obtain ⟨h1, h2⟩ := probeOutcome_channel_url probe c
      simp [h1, h2]
    rw [List.map_congr_left he]
    exact hperm.map _
  · intro o ho
    rw [hres] at ho
    obtain ⟨c, hc, hco⟩ := List.mem_map.mp ho
    obtain ⟨h1, h2⟩ := probeOutcome_channel_url probe c
    exact ⟨c, hperm.mem_iff.mp hc, by rw [← hco, h1], by rw [← hco, h2]⟩

/-- C1 witness: two channels probed in reversed completion order with pool
width 1, one probe raising — still exactly two outcomes, one per record. -/
theorem claim1_witness :
    (validate_channels_parallel
        (fun c => if c.name = "A".data then Except.ok (true, "m".data)
          else Except.error "boom".data) 1
        [⟨"#b".data, "B".data, "http://b".data, "s".data⟩,
          ⟨"#a".data, "A".data, "http://a".data, "s".data⟩]).2.length =
      ([⟨"#a".data, "A".data, "http://a".data, "s".data⟩,
        ⟨"#b".data, "B".data, "http://b".data, "s".data⟩] : List Channel).length ∧
    ((validate_channels_parallel
        (fun c => if c.name = "A".data then Except.ok (true, "m".data)
          else Except.error "boom".data) 1
        [⟨"#b".data, "B".data, "http://b".data, "s".data⟩,
          ⟨"#a".data, "A".data, "http://a".data, "s".data⟩]).2.map
        (fun o => (o.channel, o.url))).Perm
      (([⟨"#a".data, "A".data, "http://a".data, "s".data⟩,
        ⟨"#b".data, "B".data, "http://b".data, "s".data⟩] : List Channel).map
        (fun c => (c.name, c.url))) ∧
    (∀ o ∈ (validate_channels_parallel
        (fun c => if c.name = "A".data then Except.ok (true, "m".data)
          else Except.error "boom".data) 1
        [⟨"#b".data, "B".data, "http://b".data, "s".data⟩,
          ⟨"#a".data, "A".data, "http://a".data, "s".data⟩]).2,
      ∃ c ∈ ([⟨"#a".data, "A".data, "http://a".data, "s".data⟩,
        ⟨"#b".data, "B".data, "http://b".data, "s".data⟩] : List Channel),
        c.name = o.channel ∧ c.url = o.url) :=
  claim1_validator_outcomes
    [⟨"#a".data, "A".data, "http://a".data, "s".data⟩,
      ⟨"#b".data, "B".data, "http://b".data, "s".data⟩]
    [⟨"#b".data, "B".data, "http://b".data, "s".data⟩,
      ⟨"#a".data, "A".data, "http://a".data, "s".data⟩]
    (fun c => if c.name = "A".data then Except.ok (true, "m".data)
      else Except.error "boom".data) 1 (by omega) (by decide)

theorem keepFirst_seen_congr :
    ∀ (cs : List Channel) (s1 s2 : List Str), (∀ x, x ∈ s1 ↔ x ∈ s2) →
      keepFirst s1 cs = keepFirst s2 cs := by
  intro cs
  induction cs with
  | nil => intro s1 s2 _; rfl
  | cons c cs ih =>
    intro s1 s2 h
    rw [keepFirst, keepFirst]
    by_cases hm : c.url ∈ s1
    · rw [if_pos hm, if_pos ((h c.url).mp hm)]
      exact ih s1 s2 h
    · rw [if_neg hm, if_neg (fun hx => hm ((h c.url).mpr hx))]
      congr 1
      apply ih
      intro x
      simp only [List.mem_cons]
      rw [h x]

theorem keepFirst_cons_mem {s : List Str} {c : Channel} (h : c.url ∈ s)
    (cs : List Channel) : keepFirst s (c :: cs) = keepFirst s cs := by
  rw [keepFirst, if_pos h]

theorem keepFirst_cons_not_mem {s : List Str} {c : Channel} (h : c.url ∉ s)
    (cs : List Channel) : keepFirst s (c :: cs) = c :: keepFirst (c.url :: s) cs := by
  rw [keepFirst, if_neg h]

theorem dedup_foldl (cs : List Channel) :
    ∀ (m : List (Str × Channel)),
      ((cs.foldl
        (fun m c => if m.any (fun p => p.1 == c.url) then m else m ++ [(c.url, c)]) m).map
        Prod.snd)
        = m.map Prod.snd ++ keepFirst (m.map Prod.fst) cs := by
  induction cs with
  | nil =>
    intro m
    rw [List.foldl_nil, show keepFirst (m.map Prod.fst) [] = [] from rfl, List.append_nil]
  | cons c cs ih =>
    intro m
    rw [List.foldl_cons]
    by_cases hm : m.any (fun p => p.1 == c.url) = true
    · rw [if_pos hm, ih]
      have hmem : c.url ∈ m.map Prod.fst := by
        obtain ⟨p, hp, he⟩ := List.any_eq_true.mp hm
        rw [beq_iff_eq] at he
        exact List.mem_map.mpr ⟨p, hp, he⟩
      rw [keepFirst_cons_mem hmem]
    · rw [if_neg hm, ih]
      have hnm : c.url ∉ m.map Prod.fst := by
        intro hx
        obtain ⟨p, hp, he⟩ := List.mem_map.mp hx
        exact hm (List.any_eq_true.mpr ⟨p, hp, beq_iff_eq.mpr he⟩)
      rw [keepFirst_cons_not_mem hnm]
      have e1 : (m ++ [(c.url, c)]).map Prod.snd = m.map Prod.snd ++ [c] := by simp
      have e2 : (m ++ [(c.url, c)]).map Prod.fst = m.map Prod.fst ++ [c.url] := by simp
      rw [e1, e2]
      rw [keepFirst_seen_congr cs (m.map Prod.fst ++ [c.url]) (c.url :: m.map Prod.fst)
        (by
          intro x
          simp only [List.mem_append, List.mem_cons, List.not_mem_nil, or_false]
          tauto)]
      simp

theorem dedupChannels_eq_keepFirst (cs : List Channel) :
    dedupChannels cs = keepFirst [] cs := by
  unfold dedupChannels
  rw [dedup_foldl cs []]
  simp

theorem keepFirst_sublist : ∀ (cs : List Channel) (s : List Str),
    (keepFirst s cs).Sublist cs := by
  intro cs
  induction cs with
  | nil => intro s; simp [keepFirst]
  | cons c cs ih =>
    intro s
    rw [keepFirst]
    by_cases hm : c.url ∈ s
    · rw [if_pos hm]
      exact (ih s).cons c
    · rw [if_neg hm]
      exact (ih (c.url :: s)).cons₂ c

theorem mem_keepFirst : ∀ (cs : List Channel) (s : List Str) (c : Channel),
    c ∈ keepFirst s cs → c ∈ cs ∧ c.url ∉ s := by
  intro cs
  induction cs with
  | nil => intro s c hc; simp [keepFirst] at hc
  | cons a cs ih =>
    intro s c hc
    rw [keepFirst] at hc
    by_cases hm : a.url ∈ s
    · rw [if_pos hm] at hc
      obtain ⟨h1, h2⟩ := ih s c hc
      exact ⟨List.mem_cons_of_mem _ h1, h2⟩
    · rw [if_neg hm] at hc
      rcases List.mem_cons.mp hc with hc | hc
      · subst hc
        exact ⟨List.mem_cons_self c cs, hm⟩
      · obtain ⟨h1, h2⟩ := ih (a.url :: s) c hc
        exact ⟨List.mem_cons_of_mem _ h1, fun hx => h2 (List.mem_cons_of_mem _ hx)⟩

theorem keepFirst_pairwise : ∀ (cs : List Channel) (s : List Str),
    (keepFirst s cs).Pairwise (fun a b => a.url ≠ b.url) := by
  intro cs
  induction cs with
  | nil => intro s; simp [keepFirst]
  | cons a cs ih =>
    intro s
    rw [keepFirst]
    by_cases hm : a.url ∈ s
    · rw [if_pos hm]
      exact ih s
    · rw [if_neg hm]
      refine List.Pairwise.cons ?_ (ih (a.url :: s))
      intro b hb hab
      have := (mem_keepFirst cs (a.url :: s) b hb).2
      exact this (hab ▸ List.mem_cons_self a.url s)

theorem keepFirst_first_occ : ∀ (cs : List Channel) (s : List Str) (c : Channel),
    c ∈ keepFirst s cs →
    ∃ pre suf, cs = pre ++ c :: suf ∧ ∀ d ∈ pre, d.url ≠ c.url := by
  intro cs
  induction cs with
  | nil => intro s c hc; simp [keepFirst] at hc
  | cons a cs ih =>
    intro s c hc
    rw [keepFirst] at hc
    by_cases hm : a.url ∈ s
    · rw [if_pos hm] at hc
      obtain ⟨pre, suf, heq, hpre⟩ := ih s c hc
      have hcu : c.url ∉ s := (mem_keepFirst cs s c hc).2
      refine ⟨a :: pre, suf, by rw [heq, List.cons_append], ?_⟩
      intro d hd
      rcases List.mem_cons.mp hd with hd | hd
      · subst hd
        intro he
        exact hcu (he ▸ hm)
      · exact hpre d hd
    · rw [if_neg hm] at hc
      rcases List.mem_cons.mp hc with hc | hc
      · subst hc
        exact ⟨[], cs, rfl, by simp⟩
      · obtain ⟨pre, suf, heq, hpre⟩ := ih (a.url :: s) c hc
        have hcu : c.url ∉ a.url :: s := (mem_keepFirst cs (a.url :: s) c hc).2
        refine ⟨a :: pre, suf, by rw [heq, List.cons_append], ?_⟩
        intro d hd
        rcases List.mem_cons.mp hd with hd | hd
        · subst hd
          intro he
          exact hcu (he ▸ List.mem_cons_self d.url s)
        · exact hpre d hd

theorem keepFirst_covers : ∀ (cs : List Channel) (s : List Str) (c : Channel),
    c ∈ cs → c.url ∈ s ∨ ∃ c', c' ∈ keepFirst s cs ∧ c'.url = c.url := by
  intro cs
  induction cs with
  | nil => intro s c hc; simp at hc
  | cons a cs ih =>
    intro s c hc
    rw [keepFirst]
    by_cases hm : a.url ∈ s
    · rw [if_pos hm]
      rcases List.mem_cons.mp hc with hc | hc
      · subst hc
        exact Or.inl hm
      · exact ih s c hc
    · rw [if_neg hm]
      rcases List.mem_cons.mp hc with hc | hc
      · subst hc
        exact Or.inr ⟨c, List.mem_cons_self _ _, rfl⟩
      · rcases ih (a.url :: s) c hc with h | ⟨c', hc', he⟩
        · rcases List.mem_cons.mp h with h | h
          · exact Or.inr ⟨a, List.mem_cons_self _ _, h.symm⟩
          · exact Or.inl h
        · exact Or.inr ⟨c', List.mem_cons_of_mem _ hc', he⟩

/-- C6: the Deduplicator's output has no two records with an equal
`streamLocator`; every surviving record is the earliest occurrence of its
locator in the input (everything before it in the input has a different
locator, so the fields of later duplicates are dropped); the output is a
sublist of the input, i.e. first-seen order is preserved; and every input
locator survives in some record. -/
theorem claim6_dedup (all_channels : List Channel) :
    (dedupChannels all_channels).Sublist all_channels ∧
    (dedupChannels all_channels).Pairwise (fun a b => a.url ≠ b.url) ∧
    (∀ c ∈ dedupChannels all_channels,
      ∃ pre suf, all_channels = pre ++ c :: suf ∧ ∀ d ∈ pre, d.url ≠ c.url) ∧
    (∀ c ∈ all_channels, ∃ c', c' ∈ dedupChannels all_channels ∧ c'.url = c.url) := by
  rw [dedupChannels_eq_keepFirst]
  refine ⟨keepFirst_sublist all_channels [], keepFirst_pairwise all_channels [], ?_, ?_⟩
  · intro c hc
    exact keepFirst_first_occ all_channels [] c hc
  · intro c hc
    rcases keepFirst_covers all_channels [] c hc with h | h
    · simp at h
    · exact h

theorem filter_quality_foldl :
    ∀ (cs : List Channel) (acc : List Channel),
      cs.foldl
        (fun acc c =>
          let name := lowerStr c.name
          if badKeywords.any (fun bad_name => containsStr name bad_name) then acc
          else if goodKeywords.any (fun good_keyword => containsStr name good_keyword) then
            acc ++ [c]
          else acc ++ [c]) acc
        = acc ++ cs.filter (fun c => !(hasBadKeyword c.name)) := by
  intro cs
  induction cs with
  | nil => intro acc; simp
  | cons c cs ih =>
    intro acc
    rw [List.foldl_cons]
    show (cs.foldl _
      (if badKeywords.any (fun bad_name => containsStr (lowerStr c.name) bad_name) then acc
        else if goodKeywords.any (fun good_keyword =>
          containsStr (lowerStr c.name) good_keyword) then acc ++ [c]
        else acc ++ [c])) = _
    rw [ite_self]
    by_cases hb : badKeywords.any (fun k => containsStr (lowerStr c.name) k) = true
    · rw [if_pos hb, ih, List.filter_cons]
      have hbk : (!(hasBadKeyword c.name)) = false := by
        simp [hasBadKeyword, hb]
      simp [hbk]
    · rw [if_neg hb, ih, List.filter_cons]
      have hbk : (!(hasBadKeyword c.name)) = true := by
        simp only [hasBadKeyword]
        simp only [Bool.eq_false_iff.mpr hb]
        rfl
      simp [hbk]

/-- C7: the Quality Filter's output is exactly the input records whose
lowercased `displayName` does not contain any member of the fixed exclusion
keyword set, unchanged and in input order; the filtering predicate does not
mention the good-keyword set at all, so membership in it never alters
inclusion. -/
theorem claim7_quality_filter (channels : List Channel) :
    filter_quality_channels channels =
      channels.filter (fun c => !(hasBadKeyword c.name)) := by
  unfold filter_quality_channels
  rw [filter_quality_foldl channels []]
  simp

/-- C2 counterexample: the code tests the allow-list domains as substrings
of the WHOLE url, not of its host: `http://evil.com/youtube.com` has host
`evil.com`, which matches no allow-list domain, yet the prober returns
`reachable=true` / `SKIPPED_TRUSTED` with no network request — where the
claim requires one header request and, at status 404, `reachable=false`. -/
theorem claim2_counterexample :
    is_url_accessible ⟨"#e".data, "E".data, "http://evil.com/youtube.com".data, "s".data⟩
        (NetResponse.status 404) =
      (true, "流媒体链接（跳过验证）".data, 0) ∧
    hostMatchesTrusted "http://evil.com/youtube.com".data = false := by
  refine ⟨by decide, by decide⟩

/-- C2 (amended): the Reachability Prober decides by this ordered case
analysis: a locator missing a scheme or host yields `reachable=false` with
the malformed-URL message and no network call; otherwise a locator
CONTAINING an allow-list domain anywhere in the URL string (not only in its
host) yields `reachable=true` with the skip message and no network call;
otherwise exactly one header request is made, status in {200, 301, 302}
yields `reachable=true` and any other status `reachable=false`, a timeout
and a connection failure yield their fixed messages, and any other failure
yields `reachable=false` with the original failure description appended to
the diagnostic text; no retries. -/
theorem claim2_prober_cases (channel : Channel) (net : NetResponse) :
    ((urlScheme channel.url = [] ∨ urlNetloc channel.url = []) →
      is_url_accessible channel net = (false, "无效的URL格式".data, 0)) ∧
    (¬(urlScheme channel.url = [] ∨ urlNetloc channel.url = []) →
      trustedDomains.any (fun domain => containsStr channel.url domain) = true →
      is_url_accessible channel net = (true, "流媒体链接（跳过验证）".data, 0)) ∧
    (¬(urlScheme channel.url = [] ∨ urlNetloc channel.url = []) →
      trustedDomains.any (fun domain => containsStr channel.url domain) = false →
      (is_url_accessible channel net).2.2 = 1 ∧
      (∀ s, net = NetResponse.status s →
        ((is_url_accessible channel net).1 = true ↔ (s = 200 ∨ s = 301 ∨ s = 302))) ∧
      (net = NetResponse.timeout →
        is_url_accessible channel net = (false, "连接超时".data, 1)) ∧
      (net = NetResponse.connectionError →
        is_url_accessible channel net = (false, "连接错误".data, 1)) ∧
      (∀ e, net = NetResponse.otherError e →
        is_url_accessible channel net = (false, "异常: ".data ++ e, 1))) := by
  refine ⟨?_, ?_, ?_⟩
  · intro h
    unfold is_url_accessible
    rw [if_pos h]
  · intro h1 h2
    unfold is_url_accessible
    rw [if_neg h1, if_pos h2]
  · intro h1 h2
    have hred : ∀ (x : NetResponse), is_url_accessible channel x =
        match x with
        | NetResponse.status code =>
          if code = 200 ∨ code = 302 ∨ code = 301 then
            (true, "状态码: ".data ++ natDigits code, 1)
          else (false, "状态码: ".data ++ natDigits code, 1)
        | NetResponse.timeout => (false, "连接超时".data, 1)
        | NetResponse.connectionError => (false, "连接错误".data, 1)
        | NetResponse.otherError e => (false, "异常: ".data ++ e, 1) := by
      intro x
      unfold is_url_accessible
      rw [if_neg h1, if_neg (by simp [h2])]
    refine ⟨?_, ?_, ?_, ?_, ?_⟩
    · rw [hred net]
      cases net with
      | status s =>
        dsimp only
        split <;> rfl
      | timeout => rfl
      | connectionError => rfl
      | otherError e => rfl
    · intro s hs
      subst hs
      rw [hred]
      dsimp only
      by_cases hsv : s = 200 ∨ s = 302 ∨ s = 301
      · rw [if_pos hsv]
        simp only [true_iff]
        tauto
      · rw [if_neg hsv]
        simp only [Bool.false_eq_true, false_iff]
        tauto
    · intro hs
      subst hs
      rw [hred]
    · intro hs
      subst hs
      rw [hred]
    · intro e hs
      subst hs
      rw [hred]

/-- C2 witness: a plain URL outside the allow-list whose probe times out is
classified with the timeout message after exactly one request. -/
theorem claim2_witness :
    is_url_accessible ⟨"#e".data, "E".data, "http://site.com/x".data, "s".data⟩
        NetResponse.timeout = (false, "连接超时".data, 1) :=
  ((claim2_prober_cases ⟨"#e".data, "E".data, "http://site.com/x".data, "s".data⟩
      NetResponse.timeout).2.2 (by decide) (by decide)).2.2.1 rfl

/-- C3 counterexample: the keyword sets are not disjoint (`凤凰` is in both
the satellite and hongkong sets), and matching is not case-insensitive on
the keyword side: the display name is lowercased but keywords are matched
verbatim, so the uppercase keyword `HOY` never matches — `HOY TV` is
classified `other` by the code while a genuinely case-insensitive matcher
(`categorize_channel_ci`) yields `hongkong`. -/
theorem claim3_counterexample :
    categorize_channel "HOY TV".data = "other".data ∧
    categorize_channel_ci "HOY TV".data = "hongkong".data ∧
    "凤凰".data ∈ satellite_keywords ∧ "凤凰".data ∈ hongkong_keywords := by
  refine ⟨by decide, by decide, by decide, by decide⟩

/-- C3 (amended): the Categorizer evaluates the four (overlapping) keyword
sets in the fixed priority order cctv, satellite, local, hongkong on the
LOWERCASED display name with keywords matched verbatim, returning the label
of the first matching set and `other` when none match — characterized
completely, one universal conjunct per priority level: a cctv match wins
outright (in particular over a simultaneous satellite match); a satellite
match wins when no cctv keyword matches (so the overlapping keyword 凤凰
resolves to `satellite`, as the vector 凤凰卫视 also shows); a local match
wins below those; a hongkong match below those; `other` when nothing
matches; and the four example vectors hold. -/
theorem claim3_categorizer :
    categorize_channel "CCTV-1 综合".data = "cctv".data ∧
    categorize_channel "湖南卫视".data = "satellite".data ∧
    categorize_channel "TVB翡翠台".data = "hongkong".data ∧
    categorize_channel "Random Channel".data = "other".data ∧
    categorize_channel "凤凰卫视".data = "satellite".data ∧
    (∀ name : Str, cctv_keywords.any (fun k => containsStr (lowerStr name) k) = true →
      categorize_channel name = "cctv".data) ∧
    (∀ name : Str,
      cctv_keywords.any (fun k => containsStr (lowerStr name) k) = false →
      satellite_keywords.any (fun k => containsStr (lowerStr name) k) = true →
      categorize_channel name = "satellite".data) ∧
    (∀ name : Str,
      cctv_keywords.any (fun k => containsStr (lowerStr name) k) = false →
      satellite_keywords.any (fun k => containsStr (lowerStr name) k) = false →
      local_keywords.any (fun k => containsStr (lowerStr name) k) = true →
      categorize_channel name = "local".data) ∧
    (∀ name : Str,
      cctv_keywords.any (fun k => containsStr (lowerStr name) k) = false →
      satellite_keywords.any (fun k => containsStr (lowerStr name) k) = false →
      local_keywords.any (fun k => containsStr (lowerStr name) k) = false →
      hongkong_keywords.any (fun k => containsStr (lowerStr name) k) = true →
      categorize_channel name = "hongkong".data) ∧
    (∀ name : Str,
      cctv_keywords.any (fun k => containsStr (lowerStr name) k) = false →
      satellite_keywords.any (fun k => containsStr (lowerStr name) k) = false →
      local_keywords.any (fun k => containsStr (lowerStr name) k) = false →
      hongkong_keywords.any (fun k => containsStr (lowerStr name) k) = false →
      categorize_channel name = "other".data) := by
  refine ⟨by decide, by decide, by decide, by decide, by decide, ?_, ?_, ?_, ?_, ?_⟩
  · intro name h
    unfold categorize_channel
    rw [if_pos h]
  · intro name h1 h2
    unfold categorize_channel
    rw [if_neg (by simp [h1]), if_pos h2]
  · intro name h1 h2 h3
    unfold categorize_channel
    rw [if_neg (by simp [h1]), if_neg (by simp [h2]), if_pos h3]
  · intro name h1 h2 h3 h4
    unfold categorize_channel
    rw [if_neg (by simp [h1]), if_neg (by simp [h2]), if_neg (by simp [h3]),
      if_pos h4]
  · intro name h1 h2 h3 h4
    unfold categorize_channel
    rw [if_neg (by simp [h1]), if_neg (by simp [h2]), if_neg (by simp [h3]),
      if_neg (by simp [h4])]

/-- C3 witness: a name containing both a cctv keyword and a satellite
keyword resolves to cctv by priority (top priority level), and a name
containing both a satellite keyword and a hongkong keyword but no cctv
keyword resolves to satellite (second priority level). -/
theorem claim3_witness :
    categorize_channel "CCTV湖南卫视".data = "cctv".data ∧
    categorize_channel "凤凰翡翠台".data = "satellite".data :=
  ⟨claim3_categorizer.2.2.2.2.2.1 "CCTV湖南卫视".data (by decide),
    claim3_categorizer.2.2.2.2.2.2.1 "凤凰翡翠台".data (by decide) (by decide)⟩

theorem categorize_mem_labels (name : Str) : categorize_channel name ∈ bucketLabels := by
  unfold categorize_channel
  by_cases h1 : (cctv_keywords.any fun keyword => containsStr (lowerStr name) keyword) = true
  · rw [if_pos h1]; decide
  · rw [if_neg h1]
    by_cases h2 : (satellite_keywords.any fun keyword =>
        containsStr (lowerStr name) keyword) = true
    · rw [if_pos h2]; decide
    · rw [if_neg h2]
      by_cases h3 : (local_keywords.any fun keyword =>
          containsStr (lowerStr name) keyword) = true
      · rw [if_pos h3]; decide
      · rw [if_neg h3]
        by_cases h4 : (hongkong_keywords.any fun keyword =>
            containsStr (lowerStr name) keyword) = true
        · rw [if_pos h4]; decide
        · rw [if_neg h4]; decide

theorem appendBucket_filter (p : List Channel) (c : Channel) :
    appendBucket
        (bucketLabels.map (fun k =>
          (k, p.filter (fun x => categorize_channel x.name == k))))
        (categorize_channel c.name) c
      = bucketLabels.map (fun k =>
          (k, (p ++ [c]).filter (fun x => categorize_channel x.name == k))) := by
  unfold appendBucket
  rw [List.map_map]
  apply List.map_congr_left
  intro k hk
  simp only [Function.comp]
  by_cases he : k = categorize_channel c.name
  · rw [if_pos he]
    have hb : (categorize_channel c.name == k) = true := by
      rw [he]
      exact beq_self_eq_true _
    rw [List.filter_append]
    simp [List.filter_cons, hb]
  · rw [if_neg he]
    have hb : (categorize_channel c.name == k) = false := by
      rw [beq_eq_false_iff_ne]
      exact fun hx => he hx.symm
    rw [List.filter_append]
    simp [List.filter_cons, hb]

theorem categorizeChannels_inv :
    ∀ (l : List Channel) (p : List Channel),
      l.foldl (fun m c => appendBucket m (categorize_channel c.name) c)
        (bucketLabels.map (fun k =>
          (k, p.filter (fun x => categorize_channel x.name == k))))
      = bucketLabels.map (fun k =>
          (k, (p ++ l).filter (fun x => categorize_channel x.name == k))) := by
  intro l
  induction l with
  | nil => intro p; simp
  | cons c l ih =>
    intro p
    rw [List.foldl_cons, appendBucket_filter p c, ih (p ++ [c])]
    have he : (p ++ [c]) ++ l = p ++ c :: l := by simp
    rw [he]

theorem categorizeChannels_eq (valid_channels : List Channel) :
    categorizeChannels valid_channels =
      bucketLabels.map (fun k =>
        (k, valid_channels.filter (fun c => categorize_channel c.name == k))) := by
  unfold categorizeChannels
  have h0 : bucketLabels.map (fun k => (k, ([] : List Channel))) =
      bucketLabels.map (fun k =>
        (k, ([] : List Channel).filter (fun c => categorize_channel c.name == k))) := by
    simp
  rw [h0, categorizeChannels_inv valid_channels []]
  simp

theorem countP_eq_one_of_nodup_mem {a : Str} :
    ∀ {ks : List Str}, ks.Nodup → a ∈ ks → ks.countP (fun k => a == k) = 1 := by
  intro ks
  induction ks with
  | nil => intro _ h; simp at h
  | cons k ks ih =>
    intro hnd hm
    rw [List.countP_cons]
    rcases List.mem_cons.mp hm with hm | hm
    · subst hm
      have hz : ks.countP (fun k => a == k) = 0 := by
        rw [List.countP_eq_zero]
        intro x hx
        have hne : a ≠ x := by
          intro he
          exact (List.nodup_cons.mp hnd).1 (he ▸ hx)
        simp [hne]
      simp [hz]
    · have hne : a ≠ k := by
        intro he
        exact (List.nodup_cons.mp hnd).1 (he ▸ hm)
      have := ih (List.nodup_cons.mp hnd).2 hm
      simp [this, hne]

theorem sum_filter_lengths :
    ∀ (l : List Channel) (ks : List Str), ks.Nodup →
      (∀ c ∈ l, categorize_channel c.name ∈ ks) →
      (ks.map (fun k =>
        (l.filter (fun c => categorize_channel c.name == k)).length)).sum = l.length := by
  intro l
  induction l with
  | nil => intro ks _ _; simp
  | cons c l ih =>
    intro ks hnd hmem
    have hsum : ∀ (ks' : List Str),
        (ks'.map (fun k =>
          ((c :: l).filter (fun x => categorize_channel x.name == k)).length)).sum
        = (ks'.map (fun k =>
            (l.filter (fun x => categorize_channel x.name == k)).length)).sum
          + ks'.countP (fun k => categorize_channel c.name == k) := by
      intro ks'
      induction ks' with
      | nil => simp
      | cons k ks' ihk =>
        rw [List.map_cons, List.map_cons, List.sum_cons, List.sum_cons, ihk,
          List.countP_cons, List.filter_cons]
        by_cases he : (categorize_channel c.name == k) = true
        · simp only [he, if_true, if_pos]
          rw [List.length_cons]
          omega
        · have he' : (categorize_channel c.name == k) = false := by
            rw [Bool.eq_false_iff]
            exact he
          simp only [he', Bool.false_eq_true, if_false]
          omega
    rw [hsum ks, ih ks hnd (fun x hx => hmem x (List.mem_cons_of_mem _ hx)),
      countP_eq_one_of_nodup_mem hnd (hmem c (List.mem_cons_self c l))]
    simp

/-- C9: after categorization, every record in any bucket passed the Quality
Filter (it belongs to the filter's output) and was judged reachable by the
Prober (its probe returned reachable), and every validated record lies in
exactly one of the five buckets, whose sizes sum to the number of validated
records. -/
theorem claim9_buckets (all_channels : List Channel) (order : List Channel)
    (probe : Channel → Except Str (Bool × Str)) (W : Nat) (hW : 1 ≤ W)
    (horder : order.Perm (filter_quality_channels (dedupChannels all_channels))) :
    (∀ p ∈ categorizeChannels (validate_channels_parallel probe W order).1,
      ∀ c ∈ p.2,
        c ∈ filter_quality_channels (dedupChannels all_channels) ∧
        ∃ m, probe c = Except.ok (true, m)) ∧
    (∀ c ∈ (validate_channels_parallel probe W order).1,
      (categorizeChannels (validate_channels_parallel probe W order).1).countP
        (fun p => decide (c ∈ p.2)) = 1) ∧
    ((categorizeChannels (validate_channels_parallel probe W order).1).map
      (fun p => p.2.length)).sum
      = (validate_channels_parallel probe W order).1.length := by
  have hvalid := validate_valid_eq probe W order
  have hbk := categorizeChannels_eq (validate_channels_parallel probe W order).1
  have hmemvalid : ∀ c ∈ (validate_channels_parallel probe W order).1,
      c ∈ filter_quality_channels (dedupChannels all_channels) ∧
      ∃ m, probe c = Except.ok (true, m) := by
    intro c hc
    rw [hvalid] at hc
    obtain ⟨hco, hkeep⟩ := List.mem_filter.mp hc
    refine ⟨horder.mem_iff.mp hco, ?_⟩
    unfold probeKeeps at hkeep
    rcases hp : probe c with res | e
    · rw [hp] at hkeep
      simp at hkeep
    · rw [hp] at hkeep
      rcases e with ⟨b, m⟩
      simp at hkeep
      subst hkeep
      exact ⟨m, rfl⟩
  refine ⟨?_, ?_, ?_⟩
  · intro p hp c hc
    rw [hbk] at hp
    obtain ⟨k, hk, hpe⟩ := List.mem_map.mp hp
    rw [← hpe] at hc
    exact hmemvalid c (List.mem_filter.mp hc).1
  · intro c hc
    rw [hbk, List.countP_map]
    have hpt : ∀ k ∈ bucketLabels,
        (decide (c ∈ (validate_channels_parallel probe W order).1.filter
          (fun x => categorize_channel x.name == k)))
        = (categorize_channel c.name == k) := by
      intro k _
      by_cases hk : categorize_channel c.name = k
      · have hmem : c ∈ (validate_channels_parallel probe W order).1.filter
            (fun x => categorize_channel x.name == k) :=
          List.mem_filter.mpr ⟨hc, by rw [hk]; exact beq_self_eq_true _⟩
        simp [hmem, hk]
      · have hmem : c ∉ (validate_channels_parallel probe W order).1.filter
            (fun x => categorize_channel x.name == k) := by
          intro hmem
          exact hk (beq_iff_eq.mp (List.mem_filter.mp hmem).2)
        simp [hmem, beq_eq_false_iff_ne.mpr hk]
    rw [List.countP_congr (by intro k hk; rw [Function.comp_apply, hpt k hk])]
    exact countP_eq_one_of_nodup_mem (by decide) (categorize_mem_labels c.name)
  · rw [hbk, List.map_map]
    have he : ((fun p => p.2.length) ∘ fun k =>
        (k, (validate_channels_parallel probe W order).1.filter
          (fun c => categorize_channel c.name == k)))
        = fun k => ((validate_channels_parallel probe W order).1.filter
          (fun c => categorize_channel c.name == k)).length := rfl
    rw [he]
    exact sum_filter_lengths _ bucketLabels (by decide)
      (fun c _ => categorize_mem_labels c.name)

/-- C9 witness: the bucket invariants instantiated on a concrete
single-channel pipeline run whose probe reports reachable. -/
theorem claim9_witness :
    (∀ p ∈ categorizeChannels (validate_channels_parallel
        (fun _ => Except.ok (true, "m".data)) 1
        (filter_quality_channels (dedupChannels
          [⟨"#a".data, "CCTV-1".data, "http://a".data, "s".data⟩]))).1,
      ∀ c ∈ p.2,
        c ∈ filter_quality_channels (dedupChannels
          [⟨"#a".data, "CCTV-1".data, "http://a".data, "s".data⟩]) ∧
        ∃ m, (fun (_ : Channel) =>
            (Except.ok (true, "m".data) : Except Str (Bool × Str))) c
          = Except.ok (true, m)) ∧
    (∀ c ∈ (validate_channels_parallel (fun _ => Except.ok (true, "m".data)) 1
        (filter_quality_channels (dedupChannels
          [⟨"#a".data, "CCTV-1".data, "http://a".data, "s".data⟩]))).1,
      (categorizeChannels (validate_channels_parallel
          (fun _ => Except.ok (true, "m".data)) 1
          (filter_quality_channels (dedupChannels
            [⟨"#a".data, "CCTV-1".data, "http://a".data, "s".data⟩]))).1).countP
        (fun p => decide (c ∈ p.2)) = 1) ∧
    ((categorizeChannels (validate_channels_parallel
        (fun _ => Except.ok (true, "m".data)) 1
        (filter_quality_channels (dedupChannels
          [⟨"#a".data, "CCTV-1".data, "http://a".data, "s".data⟩]))).1).map
      (fun p => p.2.length)).sum
      = (validate_channels_parallel (fun _ => Except.ok (true, "m".data)) 1
        (filter_quality_channels (dedupChannels
          [⟨"#a".data, "CCTV-1".data, "http://a".data, "s".data⟩]))).1.length :=
  claim9_buckets [⟨"#a".data, "CCTV-1".data, "http://a".data, "s".data⟩]
    (filter_quality_channels (dedupChannels
      [⟨"#a".data, "CCTV-1".data, "http://a".data, "s".data⟩]))
    (fun _ => Except.ok (true, "m".data)) 1 (by omega) (List.Perm.refl _)
